import Mathlib

/-!
Verification of the whisper transcription service against its specification.

This file gives a shallow embedding, in Lean 4, of the admission-control,
batching, alignment and autoscaling logic of the repository:

* `src/build_code/src/utils/transcription_utils.py` — the alignment engine
  (`combine_whisper_and_pyannote`, `combine_consecutive_speakers`);
* `src/build_code/src/services/transcription_service.py` — the batch
  executor (`process_batch` and its `_preprocess` helper) and the
  synchronous `process` entry;
* `src/build_code/src/controllers/transcription.py` — the endpoint
  validation and the pending-counter bookkeeping of
  `process_request_background`;
* `src/build_code/src/services/diarization_service.py` — speaker-label
  canonicalization inside `diarize`;
* `src/build_code/src/main.py` — the gate discipline of
  `_process_job_batch`;
* `src/gpu_queue_api.py` — the idle autoscaler (`queue_autoscaler_loop`).

Times (float seconds, rounded to two decimals in the source, hence exact
multiples of 1/100) are embedded as scaled integers, which preserves every
comparison, minimum/maximum and difference the algorithms ever take;
python `None`/`NaN` cells become `Option`; exceptions become
`Except`/`Option` error slots.  External collaborators (audio download,
the neural models, the GPU) are opaque function parameters.
-/

namespace WhisperService

/-! ### Generic insertion sort by a key

Embeds python `list.sort(key=...)` / pandas `sort_values`.  The source
relies on sorting only through the key order; any correct sort is a
faithful embedding, so we use insertion sort, for which the lemmas we
need are short.
-/

section SortByKey

variable {α : Type _} {κ : Type _} [LinearOrder κ]

/-- Insert one element into a list that is (intended to be) sorted by `key`. -/
def insertByKey (key : α → κ) (x : α) : List α → List α
  | [] => [x]
  | y :: ys => if key x ≤ key y then x :: y :: ys else y :: insertByKey key x ys

/-- Sort a list by `key` (embedding of `list.sort(key=...)` / `sort_values`). -/
def sortByKey (key : α → κ) : List α → List α
  | [] => []
  | x :: xs => insertByKey key x (sortByKey key xs)

theorem insertByKey_perm (key : α → κ) (x : α) :
    ∀ l : List α, List.Perm (insertByKey key x l) (x :: l) := by
  intro l
  induction l with
  | nil => rw [insertByKey]
  | cons y ys ih =>
    by_cases h : key x ≤ key y
    · rw [insertByKey, if_pos h]
    · rw [insertByKey, if_neg h]
      exact (ih.cons y).trans (List.Perm.swap x y ys)

theorem sortByKey_perm (key : α → κ) :
    ∀ l : List α, List.Perm (sortByKey key l) l := by
  intro l
  induction l with
  | nil => rw [sortByKey]
  | cons x xs ih =>
    exact (insertByKey_perm key x (sortByKey key xs)).trans (ih.cons x)

theorem insertByKey_pairwise (key : α → κ) (x : α) :
    ∀ m : List α, m.Pairwise (fun a b => key a ≤ key b) →
      (insertByKey key x m).Pairwise (fun a b => key a ≤ key b) := by
  intro m
  induction m with
  | nil => intro _; simp [insertByKey]
  | cons y ys ihm =>
    intro hp
    rcases List.pairwise_cons.mp hp with ⟨hy, hys⟩
    by_cases h : key x ≤ key y
    · rw [insertByKey, if_pos h]
      refine List.pairwise_cons.mpr ⟨?_, hp⟩
      intro z hz
      rcases List.mem_cons.mp hz with rfl | hz
      · exact h
      · exact le_trans h (hy z hz)
    · rw [insertByKey, if_neg h]
      refine List.pairwise_cons.mpr ⟨?_, ihm hys⟩
      intro z hz
      have hz' := (insertByKey_perm key x ys).mem_iff.mp hz
      rcases List.mem_cons.mp hz' with rfl | hz'
      · exact le_of_not_le h
      · exact hy z hz'

theorem sortByKey_sorted (key : α → κ) :
    ∀ l : List α, (sortByKey key l).Pairwise (fun a b => key a ≤ key b) := by
  intro l
  induction l with
  | nil => simp [sortByKey]
  | cons x xs ih => exact insertByKey_pairwise key x _ ih

/-- A weakly key-sorted list and a strictly key-sorted list that are
permutations of each other are equal. -/
theorem eq_of_perm_of_keySorted (key : α → κ) :
    ∀ l m : List α, List.Perm l m → l.Pairwise (fun a b => key a ≤ key b) →
      m.Pairwise (fun a b => key a < key b) → l = m := by
  intro l
  induction l with
  | nil =>
    intro m hp _ _
    exact (List.Perm.nil_eq hp).symm ▸ rfl
  | cons a t ih =>
    intro m hp hs₁ hs₂
    cases m with
    | nil => exact absurd (List.Perm.eq_nil hp) (by simp)
    | cons b u =>
      rcases List.pairwise_cons.mp hs₁ with ⟨ha, ht⟩
      rcases List.pairwise_cons.mp hs₂ with ⟨hb, hu⟩
      have hab : a = b := by
        have hamem : a ∈ b :: u := hp.mem_iff.mp (List.mem_cons_self a t)
        have hbmem : b ∈ a :: t := hp.symm.mem_iff.mp (List.mem_cons_self b u)
        rcases List.mem_cons.mp hamem with h₁ | h₁
        · exact h₁
        · rcases List.mem_cons.mp hbmem with h₂ | h₂
          · exact h₂.symm
          · exact absurd (lt_of_lt_of_le (hb a h₁) (ha b h₂)) (lt_irrefl _)
      subst hab
      have htu : List.Perm t u := hp.cons_inv
      exact congrArg (a :: ·) (ih u htu ht hu)

/-- Sorting a permutation of a strictly key-sorted list recovers that list. -/
theorem sortByKey_eq_of_perm_strict (key : α → κ) (l m : List α)
    (hp : List.Perm l m) (hm : m.Pairwise (fun a b => key a < key b)) :
    sortByKey key l = m :=
  eq_of_perm_of_keySorted key _ m ((sortByKey_perm key l).trans hp)
    (sortByKey_sorted key l) hm

/-- Sorting an already (weakly) key-sorted list is the identity. -/
theorem sortByKey_eq_of_sorted (key : α → κ) :
    ∀ l : List α, l.Pairwise (fun a b => key a ≤ key b) → sortByKey key l = l := by
  intro l
  induction l with
  | nil => simp [sortByKey]
  | cons x xs ih =>
    intro hp
    rcases List.pairwise_cons.mp hp with ⟨hx, hxs⟩
    rw [sortByKey, ih hxs]
    cases xs with
    | nil => simp [insertByKey]
    | cons y ys => simp [insertByKey, hx y (List.mem_cons_self y ys)]

end SortByKey

/-! ### Alignment engine data model

Embedding of the dataframes flowing through
`TranscriptionUtils.combine_whisper_and_pyannote` and
`TranscriptionUtils.combine_consecutive_speakers`
(`src/build_code/src/utils/transcription_utils.py`).  The python column
named `end` is spelled `stop` because `end` is a Lean keyword.
-/

/-- A row of `text_df`: one whisper transcript segment (`id, start, end, text`). -/
structure Seg where
  id : Nat
  start : ℤ
  stop : ℤ
  text : String
  deriving DecidableEq, Repr

/-- A row of `speaker_df`: one pyannote speaker turn (`start, end, speaker`).
The dataframe also carries an `index` column, which the combination step
never reads; it is omitted. -/
structure Turn where
  start : ℤ
  stop : ℤ
  speaker : String
  deriving DecidableEq, Repr

/-- A row of `all_overlaps` / of the output of
`combine_whisper_and_pyannote`: segment columns plus
`speaker_start`, `speaker_end`, `speaker`. -/
structure OverlapRow where
  id : Nat
  start : ℤ
  stop : ℤ
  text : String
  speakerStart : ℤ
  speakerStop : ℤ
  speaker : String
  deriving DecidableEq, Repr

/-- Minimum of two times (`np.minimum`). -/
def qmin (a b : ℤ) : ℤ := if a ≤ b then a else b

/-- Maximum of two times (`np.maximum`). -/
def qmax (a b : ℤ) : ℤ := if a ≤ b then b else a

/-- The derived `overlap_duration` column:
`min(end, speaker_end) - max(start, speaker_start)`. -/
def OverlapRow.overlapDuration (r : OverlapRow) : ℤ :=
  qmin r.stop r.speakerStop - qmax r.start r.speakerStart

/-- The overlap test of the source:
`~((text_df["end"] < pyannote_start) | (text_df["start"] > pyannote_end))`. -/
def overlapB (s : Seg) (t : Turn) : Bool :=
  !(decide (s.stop < t.start) || decide (s.start > t.stop))

/-- Build one row of `this_overlap_texts` for an overlapping pair. -/
def mkOverlapRow (s : Seg) (t : Turn) : OverlapRow :=
  ⟨s.id, s.start, s.stop, s.text, t.start, t.stop, t.speaker⟩

/-- The concatenated `all_overlaps` dataframe: for every speaker turn, in
turn order, all transcript segments overlapping it, in segment order. -/
def allOverlaps (segs : List Seg) (turns : List Turn) : List OverlapRow :=
  (turns.map (fun t =>
    ((segs.filter (fun s => overlapB s t)).map (fun s => mkOverlapRow s t)))).flatten

/-- One step of the running maximum over `overlap_duration`; a strictly
larger duration replaces the current maximum, so ties keep the earlier
row, as pandas `idxmax` does. -/
def selectStep (acc : Option OverlapRow) (r : OverlapRow) : Option OverlapRow :=
  match acc with
  | none => some r
  | some m => if m.overlapDuration < r.overlapDuration then some r else acc

/-- Embedding of `groupby("id")["overlap_duration"].idxmax()` restricted to
one group: the first row attaining the maximal overlap duration (pandas
`idxmax` returns the first occurrence of the maximum). -/
def selectMaxRow (rows : List OverlapRow) : Option OverlapRow :=
  rows.foldl selectStep none

/-- The group keys of `groupby("id")`, in ascending order (pandas groups
are sorted by key by default). -/
def sortedUniqueIds (rows : List OverlapRow) : List Nat :=
  sortByKey (fun n => n) (rows.map OverlapRow.id).dedup

/-- Embedding of `TranscriptionUtils.combine_whisper_and_pyannote`: build
`all_overlaps`, then keep, for each segment id in ascending id order, the
first row with maximal `overlap_duration`. -/
def combine_whisper_and_pyannote (segs : List Seg) (turns : List Turn) :
    List OverlapRow :=
  let rows := allOverlaps segs turns
  (sortedUniqueIds rows).filterMap
    (fun i => selectMaxRow (rows.filter (fun r => r.id == i)))

/-- A row of the final diarized dataframe: columns
`start, end, text, speaker` (the projection taken by
`combine_consecutive_speakers` right after its `dropna`). -/
structure ASeg where
  start : ℤ
  stop : ℤ
  text : String
  speaker : String
  deriving DecidableEq, Repr

/-- Projection of an overlap row onto the four columns that
`combine_consecutive_speakers` reads and returns. -/
def OverlapRow.toASeg (r : OverlapRow) : ASeg :=
  ⟨r.start, r.stop, r.text, r.speaker⟩

/-- Functional form of the in-place merge loop of
`combine_consecutive_speakers`: whenever two adjacent rows share a
speaker, the later row absorbs the earlier one (keeping the earlier
start, concatenating the texts with a space) and the earlier row is
NaN-ed out, i.e. dropped by the later `dropna`. -/
def mergeRunsAux (cur : ASeg) : List ASeg → List ASeg
  | [] => [cur]
  | r :: rs =>
    if r.speaker = cur.speaker then
      mergeRunsAux { r with start := cur.start, text := cur.text ++ " " ++ r.text } rs
    else
      cur :: mergeRunsAux r rs

/-- Run the merge loop: `cur` is the row currently accumulating a
same-speaker run (in the source, the latest non-NaN row). -/
def mergeRuns : List ASeg → List ASeg
  | [] => []
  | r :: rs => mergeRunsAux r rs

/-- Embedding of `TranscriptionUtils.combine_consecutive_speakers`:
merge adjacent same-speaker rows, then `sort_values("start")`. -/
def combine_consecutive_speakers (rows : List ASeg) : List ASeg :=
  sortByKey ASeg.start (mergeRuns rows)

/-- The whole alignment pipeline used on a diarized transcription:
overlap-max speaker assignment followed by the consecutive merge. -/
def alignPipeline (segs : List Seg) (turns : List Turn) : List ASeg :=
  combine_consecutive_speakers
    ((combine_whisper_and_pyannote segs turns).map OverlapRow.toASeg)

/-! ### Alignment engine, specification side

Definitions written from the words of the spec, used to state the claims
about the engine.
-/

/-- Overlap duration between a segment and a turn, as in the spec:
`min(segment.end, turn.end) - max(segment.start, turn.start)`. -/
def overlapDur (s : Seg) (t : Turn) : ℤ :=
  qmin s.stop t.stop - qmax s.start t.start

/-- One step of the spec-side running maximum over overlapping turns. -/
def bestStep (s : Seg) (acc : Option Turn) (t : Turn) : Option Turn :=
  if overlapB s t then
    match acc with
    | none => some t
    | some m => if overlapDur s m < overlapDur s t then some t else acc
  else acc

/-- The turn the spec assigns to a segment: among the overlapping turns,
the one with maximal overlap duration, ties broken in favour of the first
such turn in turn order; `none` when no turn overlaps. -/
def bestTurn (s : Seg) (turns : List Turn) : Option Turn :=
  turns.foldl (bestStep s) none

theorem dropWhile_length_le (p : α → Bool) :
    ∀ l : List α, (l.dropWhile p).length ≤ l.length := by
  intro l
  induction l with
  | nil => simp [List.dropWhile]
  | cons x xs ih =>
    rw [List.dropWhile]
    cases p x with
    | true => exact Nat.le_succ_of_le ih
    | false => exact Nat.le_refl _

/-- Collapse one maximal same-speaker run (spec wording): merged start is
the start of the first entry, merged end is the end of the last entry,
merged text is the space-joined concatenation of the texts in order. -/
def collapseRun (r : ASeg) (run : List ASeg) : ASeg :=
  ⟨r.start, (run.getLastD r).stop,
    run.foldl (fun acc x => acc ++ " " ++ x.text) r.text, r.speaker⟩

/-- The consecutive-speaker merge as worded in the spec: walk the rows in
order and replace each maximal run of consecutive same-speaker entries by
its collapsed row. -/
def specMerge : List ASeg → List ASeg
  | [] => []
  | r :: rs =>
    collapseRun r (rs.takeWhile (fun x => x.speaker == r.speaker)) ::
      specMerge (rs.dropWhile (fun x => x.speaker == r.speaker))
  termination_by l => l.length
  decreasing_by
    simp only [List.length_cons]
    exact Nat.lt_succ_of_le (dropWhile_length_le _ _)

/-! ### Alignment engine proofs -/

theorem specMerge_cons (a : ASeg) (l : List ASeg) :
    specMerge (a :: l) =
      collapseRun a (l.takeWhile fun x => x.speaker == a.speaker) ::
        specMerge (l.dropWhile fun x => x.speaker == a.speaker) := by
  rw [specMerge]

theorem collapseRun_nil (r : ASeg) : collapseRun r [] = r := rfl

theorem collapseRun_absorb (cur r m : ASeg) (tw : List ASeg)
    (hst : m.start = cur.start) (hsp2 : m.stop = r.stop)
    (htx : m.text = cur.text ++ " " ++ r.text) (hsk : m.speaker = cur.speaker) :
    collapseRun m tw = collapseRun cur (r :: tw) := by
  cases tw with
  | nil =>
    simp only [collapseRun, List.getLastD_cons, List.getLastD_nil, List.foldl_cons,
      List.foldl_nil]
    rw [hst, hsp2, htx, hsk]
  | cons x xs =>
    simp only [collapseRun, List.getLastD_cons, List.foldl_cons, List.foldl_nil]
    rw [hst, htx, hsk]

theorem mergeRunsAux_eq_specMerge :
    ∀ (rs : List ASeg) (cur : ASeg), mergeRunsAux cur rs = specMerge (cur :: rs) := by
  intro rs
  induction rs with
  | nil =>
    intro cur
    rw [mergeRunsAux, specMerge_cons]
    simp [collapseRun_nil, specMerge]
  | cons r rs ih =>
    intro cur
    by_cases h : r.speaker = cur.speaker
    · rw [mergeRunsAux, if_pos h, ih]
      rw [specMerge_cons, specMerge_cons]
      simp only [List.takeWhile_cons, List.dropWhile_cons, h, beq_self_eq_true, if_true]
      congr 1
      exact collapseRun_absorb cur r _ _ rfl rfl rfl rfl
    · rw [mergeRunsAux, if_neg h, ih]
      rw [specMerge_cons cur (r :: rs)]
      have hbeq : (r.speaker == cur.speaker) = false := by
        simp [h]
      simp only [List.takeWhile_cons, List.dropWhile_cons, hbeq, Bool.false_eq_true,
        if_false, collapseRun_nil]

/-- The in-place merge loop of the source computes exactly the maximal-run
collapse described by the spec. -/
theorem mergeRuns_eq_specMerge (l : List ASeg) : mergeRuns l = specMerge l := by
  cases l with
  | nil => rw [mergeRuns, specMerge]
  | cons r rs => exact mergeRunsAux_eq_specMerge rs r

theorem dropWhile_subset (p : α → Bool) :
    ∀ l : List α, ∀ y ∈ l.dropWhile p, y ∈ l := by
  intro l
  induction l with
  | nil => simp [List.dropWhile]
  | cons x xs ih =>
    intro y hy
    rw [List.dropWhile_cons] at hy
    by_cases hx : p x = true
    · simp only [hx, if_true] at hy
      exact List.mem_cons_of_mem x (ih y hy)
    · simp only [Bool.not_eq_true] at hx
      simp only [hx] at hy
      simpa using hy

theorem dropWhile_sublist' (p : α → Bool) :
    ∀ l : List α, (l.dropWhile p).Sublist l := by
  intro l
  induction l with
  | nil => simp [List.dropWhile]
  | cons x xs ih =>
    rw [List.dropWhile_cons]
    by_cases hx : p x = true
    · simp only [hx, if_true]
      exact ih.cons x
    · simp only [Bool.not_eq_true] at hx
      simp only [hx]
      exact List.Sublist.refl _

theorem dropWhile_head_false (p : α → Bool) :
    ∀ (l : List α) (x : α) (xs : List α), l.dropWhile p = x :: xs → p x = false := by
  intro l
  induction l with
  | nil => intro x xs h; simp [List.dropWhile] at h
  | cons y ys ih =>
    intro x xs h
    rw [List.dropWhile_cons] at h
    by_cases hy : p y = true
    · simp only [hy, if_true] at h
      exact ih x xs h
    · simp only [Bool.not_eq_true] at hy
      simp only [hy] at h
      cases h
      exact hy

/-- Every start value appearing after the collapse is the start of one of
the input rows. -/
theorem specMerge_start_mem :
    ∀ (n : Nat) (l : List ASeg), l.length ≤ n →
      ∀ x ∈ specMerge l, ∃ y ∈ l, x.start = y.start := by
  intro n
  induction n with
  | zero =>
    intro l hl x hx
    cases l with
    | nil => simp [specMerge] at hx
    | cons a as => simp at hl
  | succ n ih =>
    intro l hl x hx
    cases l with
    | nil => simp [specMerge] at hx
    | cons r rs =>
      rw [specMerge_cons] at hx
      rcases List.mem_cons.mp hx with rfl | hx
      · exact ⟨r, List.mem_cons_self r rs, rfl⟩
      · have hlen : (rs.dropWhile fun x => x.speaker == r.speaker).length ≤ n := by
          have := dropWhile_length_le (fun x => x.speaker == r.speaker) rs
          simp only [List.length_cons] at hl
          omega
        rcases ih _ hlen x hx with ⟨y, hy, hxy⟩
        exact ⟨y, List.mem_cons_of_mem r (dropWhile_subset _ rs y hy), hxy⟩

/-- Collapsing runs of a start-sorted list yields a start-sorted list. -/
theorem specMerge_sorted :
    ∀ (n : Nat) (l : List ASeg), l.length ≤ n →
      l.Pairwise (fun a b => a.start ≤ b.start) →
      (specMerge l).Pairwise (fun a b => a.start ≤ b.start) := by
  intro n
  induction n with
  | zero =>
    intro l hl _
    cases l with
    | nil => simp [specMerge]
    | cons a as => simp at hl
  | succ n ih =>
    intro l hl hp
    cases l with
    | nil => simp [specMerge]
    | cons r rs =>
      rw [specMerge_cons]
      rcases List.pairwise_cons.mp hp with ⟨hr, hrs⟩
      have hlen : (rs.dropWhile fun x => x.speaker == r.speaker).length ≤ n := by
        have := dropWhile_length_le (fun x => x.speaker == r.speaker) rs
        simp only [List.length_cons] at hl
        omega
      have hrest : (rs.dropWhile fun x => x.speaker == r.speaker).Pairwise
          (fun a b => a.start ≤ b.start) :=
        hrs.sublist (dropWhile_sublist' _ rs)
      refine List.pairwise_cons.mpr ⟨?_, ih _ hlen hrest⟩
      intro x hx
      rcases specMerge_start_mem n _ hlen x hx with ⟨y, hy, hxy⟩
      have : (collapseRun r (rs.takeWhile fun x => x.speaker == r.speaker)).start
          = r.start := rfl
      rw [this, hxy]
      exact hr y (dropWhile_subset _ rs y hy)

/-- After the collapse, adjacent rows never share a speaker. -/
theorem specMerge_chain_ne :
    ∀ (n : Nat) (l : List ASeg), l.length ≤ n →
      (specMerge l).Chain' (fun a b => a.speaker ≠ b.speaker) := by
  intro n
  induction n with
  | zero =>
    intro l hl
    cases l with
    | nil => simp [specMerge]
    | cons a as => simp at hl
  | succ n ih =>
    intro l hl
    cases l with
    | nil => simp [specMerge]
    | cons r rs =>
      rw [specMerge_cons]
      have hlen : (rs.dropWhile fun x => x.speaker == r.speaker).length ≤ n := by
        have := dropWhile_length_le (fun x => x.speaker == r.speaker) rs
        simp only [List.length_cons] at hl
        omega
      refine List.chain'_cons'.mpr ⟨?_, ih _ hlen⟩
      intro b hb
      cases hrest : rs.dropWhile (fun x => x.speaker == r.speaker) with
      | nil => rw [hrest] at hb; simp [specMerge] at hb
      | cons d ds =>
        rw [hrest, specMerge_cons] at hb
        simp only [List.head?_cons, Option.mem_def, Option.some.injEq] at hb
        have hd : (d.speaker == r.speaker) = false := dropWhile_head_false _ rs d ds hrest
        have hd' : d.speaker ≠ r.speaker := by
          intro hEq
          rw [hEq] at hd
          simp at hd
        rw [← hb]
        have : (collapseRun r (rs.takeWhile fun x => x.speaker == r.speaker)).speaker
            = r.speaker := rfl
        rw [this]
        have : (collapseRun d (ds.takeWhile fun x => x.speaker == d.speaker)).speaker
            = d.speaker := rfl
        rw [this]
        exact fun hEq => hd' hEq.symm

/-- On a list whose adjacent rows already have distinct speakers, the
collapse is the identity. -/
theorem specMerge_of_chain_ne :
    ∀ (n : Nat) (l : List ASeg), l.length ≤ n →
      l.Chain' (fun a b => a.speaker ≠ b.speaker) → specMerge l = l := by
  intro n
  induction n with
  | zero =>
    intro l hl _
    cases l with
    | nil => simp [specMerge]
    | cons a as => simp at hl
  | succ n ih =>
    intro l hl hc
    cases l with
    | nil => simp [specMerge]
    | cons r rs =>
      rw [specMerge_cons]
      cases rs with
      | nil => simp [specMerge, collapseRun_nil, List.takeWhile, List.dropWhile]
      | cons x xs =>
        have hx : x.speaker ≠ r.speaker := by
          have := List.chain'_cons.mp hc
          exact fun hEq => this.1 hEq.symm
        have hbeq : (x.speaker == r.speaker) = false := by
          simp [hx]
        simp only [List.takeWhile_cons, List.dropWhile_cons, hbeq, Bool.false_eq_true,
          if_false, collapseRun_nil]
        have hlen : (x :: xs).length ≤ n := by
          simp only [List.length_cons] at hl ⊢
          omega
        rw [ih _ hlen (List.chain'_cons.mp hc).2]

/-! ### Overlap-max assignment proofs -/

theorem allOverlaps_nil (segs : List Seg) : allOverlaps segs [] = [] := rfl

theorem allOverlaps_cons (segs : List Seg) (t : Turn) (ts : List Turn) :
    allOverlaps segs (t :: ts) =
      ((segs.filter (fun s => overlapB s t)).map (fun s => mkOverlapRow s t)) ++
        allOverlaps segs ts := by
  rw [allOverlaps, List.map_cons, List.flatten_cons]
  rfl

theorem filter_id_block_of_not_mem (s : Seg) (t : Turn) :
    ∀ l : List Seg, (∀ a ∈ l, a.id = s.id → a = s) → s ∉ l →
      ((l.filter (fun a => overlapB a t)).map (fun a => mkOverlapRow a t)).filter
        (fun r => r.id == s.id) = [] := by
  intro l
  induction l with
  | nil => intro _ _; rfl
  | cons a l' ih =>
    intro hinj hnm
    have hane : a ≠ s := fun hEq => hnm (hEq ▸ List.mem_cons_self a l')
    have haid : (a.id == s.id) = false := by
      have : a.id ≠ s.id := fun hEq => hane (hinj a (List.mem_cons_self a l') hEq)
      simp [this]
    have htl := ih (fun b hb => hinj b (List.mem_cons_of_mem a hb))
      (fun hm => hnm (List.mem_cons_of_mem a hm))
    rw [List.filter_cons]
    by_cases hov : overlapB a t = true
    · simp only [hov, if_true, List.map_cons, List.filter_cons]
      have : ((mkOverlapRow a t).id == s.id) = false := haid
      simp only [this, Bool.false_eq_true, if_false]
      exact htl
    · simp only [Bool.not_eq_true] at hov
      simp only [hov, Bool.false_eq_true, if_false]
      exact htl

theorem filter_id_block (s : Seg) (t : Turn) :
    ∀ l : List Seg, l.count s ≤ 1 → (∀ a ∈ l, a.id = s.id → a = s) → s ∈ l →
      ((l.filter (fun a => overlapB a t)).map (fun a => mkOverlapRow a t)).filter
        (fun r => r.id == s.id)
        = if overlapB s t then [mkOverlapRow s t] else [] := by
  intro l
  induction l with
  | nil => intro _ _ hm; simp at hm
  | cons a l' ih =>
    intro hcnt hinj hm
    by_cases hEq : a = s
    · subst hEq
      have hnm : a ∉ l' := by
        rw [List.count_cons_self] at hcnt
        have : l'.count a = 0 := by omega
        exact List.count_eq_zero.mp this
      have hrest := filter_id_block_of_not_mem a t l'
        (fun b hb => hinj b (List.mem_cons_of_mem a hb)) hnm
      rw [List.filter_cons]
      by_cases hov : overlapB a t = true
      · simp only [hov, if_true, List.map_cons, List.filter_cons]
        have hid : ((mkOverlapRow a t).id == a.id) = true := by
          simp [mkOverlapRow]
        simp only [hid, if_true, hrest]
      · simp only [Bool.not_eq_true] at hov
        simp only [hov, Bool.false_eq_true, if_false, hrest]
    · have hm' : s ∈ l' := by
        rcases List.mem_cons.mp hm with h | h
        · exact absurd h.symm hEq
        · exact h
      have hcnt' : l'.count s ≤ 1 := by
        rw [List.count_cons_of_ne (fun h => hEq h.symm)] at hcnt
        exact hcnt
      have haid : (a.id == s.id) = false := by
        have : a.id ≠ s.id := fun h => hEq (hinj a (List.mem_cons_self a l') h)
        simp [this]
      have htl := ih hcnt' (fun b hb => hinj b (List.mem_cons_of_mem a hb)) hm'
      rw [List.filter_cons]
      by_cases hov : overlapB a t = true
      · simp only [hov, if_true, List.map_cons, List.filter_cons]
        have : ((mkOverlapRow a t).id == s.id) = false := haid
        simp only [this, Bool.false_eq_true, if_false]
        exact htl
      · simp only [Bool.not_eq_true] at hov
        simp only [hov, Bool.false_eq_true, if_false]
        exact htl

/-- Restricted to one segment id, the turn-major `all_overlaps` table is
exactly the list of overlapping turns for that segment, in turn order. -/
theorem allOverlaps_filter_id (segs : List Seg) (s : Seg)
    (hnd : (segs.map Seg.id).Nodup) (hs : s ∈ segs) :
    ∀ turns : List Turn,
      (allOverlaps segs turns).filter (fun r => r.id == s.id)
        = (turns.filter (fun t => overlapB s t)).map (fun t => mkOverlapRow s t) := by
  have hinj : ∀ a ∈ segs, a.id = s.id → a = s := fun a ha hEq =>
    List.inj_on_of_nodup_map hnd ha hs hEq
  have hcnt : segs.count s ≤ 1 :=
    List.nodup_iff_count_le_one.mp (hnd.of_map Seg.id) s
  intro turns
  induction turns with
  | nil => rw [allOverlaps_nil]; rfl
  | cons t ts ih =>
    rw [allOverlaps_cons, List.filter_append, ih,
      filter_id_block s t segs hcnt hinj hs, List.filter_cons]
    by_cases hov : overlapB s t = true
    · simp only [hov, if_true, List.map_cons]
      rfl
    · simp only [Bool.not_eq_true] at hov
      simp only [hov, Bool.false_eq_true, if_false]
      rfl

/-- The code-side running maximum over the rows of one segment computes
the spec-side best turn, transported along `mkOverlapRow`. -/
theorem selectStep_fold_best (s : Seg) :
    ∀ (ts : List Turn) (acc : Option Turn),
      ((ts.filter (fun t => overlapB s t)).map (fun t => mkOverlapRow s t)).foldl
          selectStep (acc.map (fun t => mkOverlapRow s t))
        = (ts.foldl (bestStep s) acc).map (fun t => mkOverlapRow s t) := by
  intro ts
  induction ts with
  | nil => intro acc; rfl
  | cons t ts ih =>
    intro acc
    rw [List.filter_cons, List.foldl_cons]
    by_cases hov : overlapB s t = true
    · simp only [hov, if_true, List.map_cons, List.foldl_cons]
      have hstep : selectStep (acc.map (fun t => mkOverlapRow s t)) (mkOverlapRow s t)
          = (bestStep s acc t).map (fun t => mkOverlapRow s t) := by
        cases acc with
        | none => simp [selectStep, bestStep, hov]
        | some m =>
          have hsel : selectStep (some (mkOverlapRow s m)) (mkOverlapRow s t)
              = if overlapDur s m < overlapDur s t then some (mkOverlapRow s t)
                else some (mkOverlapRow s m) := rfl
          have hbs : bestStep s (some m) t
              = if overlapDur s m < overlapDur s t then some t else some m := by
            simp only [bestStep, hov, if_true]
          show selectStep (some (mkOverlapRow s m)) (mkOverlapRow s t)
            = (bestStep s (some m) t).map (fun t => mkOverlapRow s t)
          rw [hsel, hbs]
          by_cases hlt : overlapDur s m < overlapDur s t
          · rw [if_pos hlt, if_pos hlt]; rfl
          · rw [if_neg hlt, if_neg hlt]; rfl
      rw [hstep, ih]
    · simp only [Bool.not_eq_true] at hov
      simp only [hov, Bool.false_eq_true, if_false, bestStep]
      rw [ih]

theorem selectMaxRow_eq_bestTurn (s : Seg) (ts : List Turn) :
    selectMaxRow ((ts.filter (fun t => overlapB s t)).map (fun t => mkOverlapRow s t))
      = (bestTurn s ts).map (fun t => mkOverlapRow s t) := by
  have := selectStep_fold_best s ts none
  simpa [selectMaxRow, bestTurn] using this

theorem foldl_selectStep_mem :
    ∀ (l : List OverlapRow) (acc : Option OverlapRow) (r : OverlapRow),
      l.foldl selectStep acc = some r → r ∈ l ∨ acc = some r := by
  intro l
  induction l with
  | nil => intro acc r h; exact Or.inr h
  | cons x xs ih =>
    intro acc r h
    rw [List.foldl_cons] at h
    rcases ih (selectStep acc x) r h with hm | hacc
    · exact Or.inl (List.mem_cons_of_mem x hm)
    · cases acc with
      | none =>
        rw [selectStep] at hacc
        cases hacc
        exact Or.inl (List.mem_cons_self x xs)
      | some m =>
        rw [selectStep] at hacc
        by_cases hlt : m.overlapDuration < x.overlapDuration
        · rw [if_pos hlt] at hacc
          cases hacc
          exact Or.inl (List.mem_cons_self x xs)
        · rw [if_neg hlt] at hacc
          exact Or.inr hacc

theorem selectMaxRow_mem (l : List OverlapRow) (r : OverlapRow)
    (h : selectMaxRow l = some r) : r ∈ l := by
  rcases foldl_selectStep_mem l none r h with hm | hacc
  · exact hm
  · exact absurd hacc (by simp)

theorem mem_sortedUniqueIds (rows : List OverlapRow) (i : Nat) :
    i ∈ sortedUniqueIds rows ↔ i ∈ rows.map OverlapRow.id := by
  rw [sortedUniqueIds, (sortByKey_perm _ _).mem_iff, List.mem_dedup]

theorem combine_mem_iff (segs : List Seg) (turns : List Turn) (r : OverlapRow) :
    r ∈ combine_whisper_and_pyannote segs turns ↔
      ∃ i ∈ sortedUniqueIds (allOverlaps segs turns),
        selectMaxRow ((allOverlaps segs turns).filter (fun x => x.id == i)) = some r := by
  rw [combine_whisper_and_pyannote]
  exact List.mem_filterMap

/-- Claim C3: every transcript segment with at least one overlapping turn
(overlap meaning `NOT (segment.end < turn.start OR segment.start > turn.end)`)
is assigned the turn maximizing the overlap duration
`min(segment.end, turn.end) - max(segment.start, turn.start)`, ties broken
in favour of the first such turn in turn order; a segment with no
overlapping turn is absent from the aligned output. -/
theorem C3_overlap_max_speaker_assignment (segs : List Seg) (turns : List Turn)
    (hnd : (segs.map Seg.id).Nodup) :
    ∀ s ∈ segs,
      (∀ t : Turn, bestTurn s turns = some t →
        mkOverlapRow s t ∈ combine_whisper_and_pyannote segs turns ∧
        ∀ r ∈ combine_whisper_and_pyannote segs turns, r.id = s.id →
          r = mkOverlapRow s t) ∧
      (bestTurn s turns = none →
        ∀ r ∈ combine_whisper_and_pyannote segs turns, r.id ≠ s.id) := by
  intro s hs
  have hfilter := allOverlaps_filter_id segs s hnd hs turns
  have hsel : selectMaxRow ((allOverlaps segs turns).filter (fun x => x.id == s.id))
      = (bestTurn s turns).map (fun t => mkOverlapRow s t) := by
    rw [hfilter]
    exact selectMaxRow_eq_bestTurn s turns
  constructor
  · intro t hbt
    have hsel' : selectMaxRow ((allOverlaps segs turns).filter (fun x => x.id == s.id))
        = some (mkOverlapRow s t) := by
      rw [hsel, hbt]
      rfl
    have hmemf : mkOverlapRow s t ∈
        (allOverlaps segs turns).filter (fun x => x.id == s.id) :=
      selectMaxRow_mem _ _ hsel'
    have hmemrows : mkOverlapRow s t ∈ allOverlaps segs turns :=
      List.mem_of_mem_filter hmemf
    have hid : s.id ∈ sortedUniqueIds (allOverlaps segs turns) := by
      rw [mem_sortedUniqueIds]
      exact List.mem_map.mpr ⟨mkOverlapRow s t, hmemrows, rfl⟩
    constructor
    · exact (combine_mem_iff segs turns _).mpr ⟨s.id, hid, hsel'⟩
    · intro r hr hrid
      rcases (combine_mem_iff segs turns r).mp hr with ⟨i, _, hselr⟩
      have hri : r.id = i := by
        have := List.of_mem_filter (selectMaxRow_mem _ _ hselr)
        exact beq_iff_eq.mp this
      rw [hrid] at hri
      rw [← hri] at hselr
      rw [hselr] at hsel'
      exact Option.some_inj.mp hsel'
  · intro hbt r hr hrid
    rcases (combine_mem_iff segs turns r).mp hr with ⟨i, _, hselr⟩
    have hri : r.id = i := by
      have := List.of_mem_filter (selectMaxRow_mem _ _ hselr)
      exact beq_iff_eq.mp this
    rw [hrid] at hri
    rw [← hri] at hselr
    rw [hselr, hbt] at hsel
    exact Option.noConfusion hsel

/-- Witness for C3 at a concrete input: segment `(0, 0, 2, "a")` overlaps
both turns, and the second turn wins on overlap duration. -/
theorem C3_overlap_max_speaker_assignment_witness :
    (([⟨0, 0, 2, "a"⟩, ⟨1, 3, 4, "b"⟩] : List Seg).map Seg.id).Nodup ∧
    (⟨0, 0, 2, "a"⟩ : Seg) ∈ ([⟨0, 0, 2, "a"⟩, ⟨1, 3, 4, "b"⟩] : List Seg) ∧
    bestTurn ⟨0, 0, 2, "a"⟩ [⟨0, 1, "SPEAKER_1"⟩, ⟨0, 2, "SPEAKER_2"⟩]
      = some ⟨0, 2, "SPEAKER_2"⟩ ∧
    mkOverlapRow ⟨0, 0, 2, "a"⟩ ⟨0, 2, "SPEAKER_2"⟩ ∈
      combine_whisper_and_pyannote [⟨0, 0, 2, "a"⟩, ⟨1, 3, 4, "b"⟩]
        [⟨0, 1, "SPEAKER_1"⟩, ⟨0, 2, "SPEAKER_2"⟩] :=
  ⟨by decide, by decide, by decide,
    (((C3_overlap_max_speaker_assignment
        [⟨0, 0, 2, "a"⟩, ⟨1, 3, 4, "b"⟩] [⟨0, 1, "SPEAKER_1"⟩, ⟨0, 2, "SPEAKER_2"⟩]
        (by decide)) ⟨0, 0, 2, "a"⟩ (by decide)).1 ⟨0, 2, "SPEAKER_2"⟩ (by decide)).1⟩

/-- On start-sorted input, the merge loop plus the final
`sort_values("start")` computes exactly the maximal-run collapse. -/
theorem combine_consecutive_eq_specMerge (rows : List ASeg)
    (h : rows.Pairwise (fun a b => a.start ≤ b.start)) :
    combine_consecutive_speakers rows = specMerge rows := by
  rw [combine_consecutive_speakers, mergeRuns_eq_specMerge]
  exact sortByKey_eq_of_sorted _ _ (specMerge_sorted rows.length rows le_rfl h)

/-- Claim C4: on a time-ordered input, the consecutive-speaker merge
replaces each maximal run of same-speaker entries by a single row whose
start is the first entry's start, whose end is the last entry's end and
whose text is the space-joined concatenation of the run's texts; in
particular, segments `[(0,2,"a"),(2,4,"b")]` with the single turn
`(0,4,"SPEAKER_1")` align to exactly `[(0,4,"SPEAKER_1","a b")]`. -/
theorem C4_consecutive_merge :
    (∀ rows : List ASeg, rows.Pairwise (fun a b => a.start ≤ b.start) →
      combine_consecutive_speakers rows = specMerge rows) ∧
    alignPipeline [⟨0, 0, 2, "a"⟩, ⟨1, 2, 4, "b"⟩] [⟨0, 4, "SPEAKER_1"⟩]
      = [⟨0, 4, "a b", "SPEAKER_1"⟩] :=
  ⟨combine_consecutive_eq_specMerge, by decide⟩

/-- Witness for C4 at a concrete input: a run of two `X` rows followed by
one `Y` row collapses to two rows. -/
theorem C4_consecutive_merge_witness :
    (([⟨0, 1, "a", "X"⟩, ⟨1, 2, "b", "X"⟩, ⟨2, 3, "c", "Y"⟩] : List ASeg)).Pairwise
        (fun a b => a.start ≤ b.start) ∧
    combine_consecutive_speakers [⟨0, 1, "a", "X"⟩, ⟨1, 2, "b", "X"⟩, ⟨2, 3, "c", "Y"⟩]
      = specMerge [⟨0, 1, "a", "X"⟩, ⟨1, 2, "b", "X"⟩, ⟨2, 3, "c", "Y"⟩] :=
  ⟨by decide, C4_consecutive_merge.1 _ (by decide)⟩

/-- Counterexample to claim C9 as stated: on input that is not start-sorted
(speakers `A, B, A`), the final `sort_values("start")` brings the two `A`
rows next to each other, so re-running the merge combines them further and
the merge is not idempotent on its own output. -/
theorem C9_counterexample :
    combine_consecutive_speakers (combine_consecutive_speakers
        [⟨10, 11, "x", "A"⟩, ⟨0, 1, "y", "B"⟩, ⟨5, 6, "z", "A"⟩])
      ≠ combine_consecutive_speakers
        [⟨10, 11, "x", "A"⟩, ⟨0, 1, "y", "B"⟩, ⟨5, 6, "z", "A"⟩] := by
  decide

/-- Claim C9, amended: the consecutive-speaker merge is idempotent on every
start-sorted input (re-applying it to its own output is the identity);
on inputs that are not start-sorted the final sort can create new adjacent
same-speaker rows and a second application merges them further. -/
theorem C9_merge_idempotent_on_sorted (rows : List ASeg)
    (h : rows.Pairwise (fun a b => a.start ≤ b.start)) :
    combine_consecutive_speakers (combine_consecutive_speakers rows)
      = combine_consecutive_speakers rows := by
  rw [combine_consecutive_eq_specMerge rows h]
  have hsorted : (specMerge rows).Pairwise (fun a b => a.start ≤ b.start) :=
    specMerge_sorted rows.length rows le_rfl h
  rw [combine_consecutive_eq_specMerge _ hsorted]
  exact specMerge_of_chain_ne (specMerge rows).length _ le_rfl
    (specMerge_chain_ne rows.length rows le_rfl)

/-- Witness for the amended C9 at a concrete start-sorted input. -/
theorem C9_merge_idempotent_on_sorted_witness :
    (([⟨0, 1, "a", "X"⟩, ⟨1, 2, "b", "X"⟩, ⟨2, 3, "c", "Y"⟩] : List ASeg)).Pairwise
        (fun a b => a.start ≤ b.start) ∧
    combine_consecutive_speakers (combine_consecutive_speakers
        [⟨0, 1, "a", "X"⟩, ⟨1, 2, "b", "X"⟩, ⟨2, 3, "c", "Y"⟩])
      = combine_consecutive_speakers
        [⟨0, 1, "a", "X"⟩, ⟨1, 2, "b", "X"⟩, ⟨2, 3, "c", "Y"⟩] :=
  ⟨by decide, C9_merge_idempotent_on_sorted _ (by decide)⟩

/-! ### Request schema and python truthiness

Embedding of the `TranscriptionRequest` fields the verified code paths
inspect.  `audio_url` is `Optional[HttpUrl]` and `audio_file` is
`Optional[str]`; python truth-tests (`not body.audio_url`) treat both
`None` and the empty string as absent.
-/

structure TranscriptionRequest where
  audio_url : Option String
  audio_file : Option String
  deriving DecidableEq, Repr

/-- Python truthiness of an optional string: `None` and `""` are falsy. -/
def pyTruthy (o : Option String) : Bool :=
  match o with
  | none => false
  | some s => !s.isEmpty

/-! ### Batch executor

Embedding of `TranscriptionService.process_batch`
(`src/build_code/src/services/transcription_service.py`).  The opaque
collaborators are parameters: `prepFn` stands for
`AudioProcessor.process_audio` (download + normalise) and `computeFn` for
`_process_single_prepared` (the GPU work after preparation).  Exceptions
are `Except.error` values.  The `as_completed` arrival order of the
parallel preparation futures is an explicit `arrival` permutation of the
batch indices.
-/

/-- Result of the opaque audio preparation collaborator: the temp file
path together with an abstract waveform handle. -/
structure Prepared where
  audioFilePath : String
  waveformTag : Nat
  deriving DecidableEq, Repr

/-- Exceptions raised by preparation or compute. -/
inductive BatchErr where
  | valueError (msg : String)
  | exc (tag : Nat)
  deriving DecidableEq, Repr

/-- The 5-tuple appended to `prep_results`:
`(index, audio_file_path, waveform_dict, request, error)`, with the two
payload fields bundled into one `Option Prepared`. -/
structure PrepResult where
  index : Nat
  prep : Option Prepared
  request : TranscriptionRequest
  err : Option BatchErr
  deriving DecidableEq, Repr

/-- Embedding of the inner `_preprocess` closure: raise
`ValueError("audio_url is required")` when the url is falsy, otherwise run
the opaque download/normalise step, catching any exception into the
per-job error slot. -/
def _preprocess (prepFn : String → Except BatchErr Prepared)
    (index : Nat) (request : TranscriptionRequest) : PrepResult :=
  if pyTruthy request.audio_url = false then
    ⟨index, none, request, some (.valueError "audio_url is required")⟩
  else
    match prepFn (request.audio_url.getD "") with
    | .ok p => ⟨index, some p, request, none⟩
    | .error e => ⟨index, none, request, some e⟩

/-- One iteration of the sequential phase-2 loop: a preparation failure is
recorded as `(index, None, prep_error)`; otherwise the compute step runs
and its exception, if any, is caught into the slot. -/
def gpuStep {ρ : Type} (computeFn : TranscriptionRequest → Prepared → Except BatchErr ρ)
    (pr : PrepResult) : Nat × Option ρ × Option BatchErr :=
  match pr.err with
  | some e => (pr.index, none, some e)
  | none =>
    match pr.prep with
    | some p =>
      match computeFn pr.request p with
      | .ok resp => (pr.index, some resp, none)
      | .error e => (pr.index, none, some e)
    | none => (pr.index, none, none)

/-- Embedding of `TranscriptionService.process_batch`: enumerate the
requests, run preparation (results arriving in the `arrival` order of
`as_completed`), sort the preparation results by index, run compute
sequentially in that order, and sort the final results by index again. -/
def process_batch {ρ : Type} (prepFn : String → Except BatchErr Prepared)
    (computeFn : TranscriptionRequest → Prepared → Except BatchErr ρ)
    (reqs : List TranscriptionRequest) (arrival : List Nat) :
    List (Nat × Option ρ × Option BatchErr) :=
  if reqs.isEmpty then []
  else
    let prep0 := reqs.enum.map (fun ir => _preprocess prepFn ir.1 ir.2)
    let prepSorted := sortByKey PrepResult.index
      (arrival.filterMap (fun k => prep0[k]?))
    sortByKey (fun t => t.1) (prepSorted.map (gpuStep computeFn))

/-- What one job yields on its own: preparation followed by compute, all
failures caught into the slot. -/
def jobOutcome {ρ : Type} (prepFn : String → Except BatchErr Prepared)
    (computeFn : TranscriptionRequest → Prepared → Except BatchErr ρ)
    (i : Nat) (r : TranscriptionRequest) : Nat × Option ρ × Option BatchErr :=
  gpuStep computeFn (_preprocess prepFn i r)

/-! ### Batch executor proofs -/

theorem _preprocess_index (prepFn : String → Except BatchErr Prepared)
    (i : Nat) (r : TranscriptionRequest) : (_preprocess prepFn i r).index = i := by
  rw [_preprocess]
  by_cases h : pyTruthy r.audio_url = false
  · rw [if_pos h]
  · rw [if_neg h]
    cases hp : prepFn (r.audio_url.getD "") <;> simp [hp]

theorem gpuStep_fst {ρ : Type} (computeFn : TranscriptionRequest → Prepared → Except BatchErr ρ)
    (pr : PrepResult) : (gpuStep computeFn pr).1 = pr.index := by
  rcases pr with ⟨i, prep, req, err⟩
  cases err with
  | some e => rfl
  | none =>
    cases prep with
    | none => rfl
    | some p => cases hc : computeFn req p <;> simp [gpuStep, hc]

theorem filterMap_getElem_range :
    ∀ (l : List α), (List.range l.length).filterMap (fun k => l[k]?) = l := by
  intro l
  induction l with
  | nil => rfl
  | cons a t ih =>
    rw [List.length_cons, List.range_succ_eq_map, List.filterMap_cons]
    simp only [List.getElem?_cons_zero, List.filterMap_map, Function.comp_def,
      List.getElem?_cons_succ]
    rw [ih]

theorem pairwise_lt_key_enum_map {β : Type _} (f : Nat × TranscriptionRequest → β)
    (key : β → Nat) (l : List TranscriptionRequest)
    (hkey : ∀ p, key (f p) = p.1) :
    (l.enum.map f).Pairwise (fun a b => key a < key b) := by
  rw [List.pairwise_map]
  have h0 : (l.enum.map Prod.fst).Pairwise (fun a b : Nat => a < b) := by
    rw [List.enum_map_fst]
    exact List.pairwise_lt_range _
  rw [List.pairwise_map] at h0
  exact h0.imp (by intro a b hab; rw [hkey a, hkey b]; exact hab)

/-- Claim C2: for every arrival order of the parallel preparation phase,
`process_batch` returns, in original submission-index order, exactly the
per-job outcome each request yields on its own; in particular a
preparation or compute failure is recorded only in its own slot and the
other slots are unaffected. -/
theorem C2_batch_isolation_and_order {ρ : Type}
    (prepFn : String → Except BatchErr Prepared)
    (computeFn : TranscriptionRequest → Prepared → Except BatchErr ρ) :
    (∀ (reqs : List TranscriptionRequest) (arrival : List Nat),
      List.Perm arrival (List.range reqs.length) →
      process_batch prepFn computeFn reqs arrival
        = reqs.enum.map (fun ir => jobOutcome prepFn computeFn ir.1 ir.2)) ∧
    (∀ r : TranscriptionRequest,
      process_batch prepFn computeFn [r] [0] = [jobOutcome prepFn computeFn 0 r]) := by
  have hmain : ∀ (reqs : List TranscriptionRequest) (arrival : List Nat),
      List.Perm arrival (List.range reqs.length) →
      process_batch prepFn computeFn reqs arrival
        = reqs.enum.map (fun ir => jobOutcome prepFn computeFn ir.1 ir.2) := by
    intro reqs arrival hperm
    cases reqs with
    | nil =>
      have : arrival = [] := List.Perm.eq_nil (by simpa using hperm)
      subst this
      rfl
    | cons r₀ rs =>
      rw [process_batch]
      simp only [List.isEmpty_cons, Bool.false_eq_true, if_false]
      set reqs := r₀ :: rs with hreqs
      set prep0 := reqs.enum.map (fun ir => _preprocess prepFn ir.1 ir.2) with hprep0
      have hlen : prep0.length = reqs.length := by
        rw [hprep0, List.length_map, List.enum_length]
      have hpermArr : List.Perm (arrival.filterMap (fun k => prep0[k]?)) prep0 := by
        have h₁ : List.Perm (arrival.filterMap (fun k => prep0[k]?))
            ((List.range reqs.length).filterMap (fun k => prep0[k]?)) :=
          hperm.filterMap _
        rw [← hlen] at h₁
        rw [filterMap_getElem_range prep0] at h₁
        exact h₁
      have hstrict : prep0.Pairwise (fun a b => a.index < b.index) := by
        rw [hprep0]
        exact pairwise_lt_key_enum_map _ PrepResult.index reqs
          (fun p => _preprocess_index prepFn p.1 p.2)
      rw [sortByKey_eq_of_perm_strict PrepResult.index _ prep0 hpermArr hstrict]
      have hstrict₂ : (prep0.map (gpuStep computeFn)).Pairwise
          (fun a b => a.1 < b.1) := by
        rw [hprep0, List.map_map]
        exact pairwise_lt_key_enum_map _ (fun t : Nat × Option ρ × Option BatchErr => t.1) reqs
          (by
            intro p
            show (gpuStep computeFn (_preprocess prepFn p.1 p.2)).1 = p.1
            rw [gpuStep_fst, _preprocess_index])
      rw [sortByKey_eq_of_perm_strict (fun t : Nat × Option ρ × Option BatchErr => t.1) _ _
        (List.Perm.refl _) hstrict₂]
      rw [hprep0, List.map_map]
      rfl
  refine ⟨hmain, ?_⟩
  intro r
  have h01 : List.Perm [0] (List.range ([r] : List TranscriptionRequest).length) := by
    exact List.Perm.refl _
  have := hmain [r] [0] h01
  simpa using this

/-- Witness for C2: three jobs (one with no url, one whose download fails,
one succeeding), prepared in arrival order `2, 0, 1`, still yield their
individual outcomes in submission order. -/
theorem C2_batch_isolation_and_order_witness :
    List.Perm [2, 0, 1] (List.range
      ([⟨none, some "payload"⟩, ⟨some "http://bad", none⟩,
        ⟨some "http://good", none⟩] : List TranscriptionRequest).length) ∧
    process_batch
        (fun u => if u == "http://good" then .ok ⟨"/tmp/a.wav", 7⟩ else .error (.exc 1))
        (fun _ _ => (.ok 42 : Except BatchErr Nat))
        [⟨none, some "payload"⟩, ⟨some "http://bad", none⟩, ⟨some "http://good", none⟩]
        [2, 0, 1]
      = [(0, none, some (.valueError "audio_url is required")),
         (1, none, some (.exc 1)), (2, some 42, none)] := by
  constructor
  · decide
  · rw [(C2_batch_isolation_and_order _ _).1 _ _ (by decide)]
    decide

/-! ### Endpoint validation and the synchronous process entry

Embedding of the request/response mapping of the `transcribe` and
`invocations` endpoints (`src/build_code/src/controllers/transcription.py`)
and of the validation front of `TranscriptionService.process`.  The result
of the opaque processing call is a parameter; the admission gate around it
is modelled separately by the gate transition system below.
-/

/-- A python exception relevant to these paths: a fastapi `HTTPException`
with status code and detail, or any other exception with its message. -/
inductive ProcessExc where
  | httpException (statusCode : Nat) (detail : String)
  | exc (msg : String)
  deriving DecidableEq, Repr

/-- The 400 detail both endpoints use. -/
def validationDetail : String := "Either audio_url or audio_file must be provided"

/-- How `transcribe` forwards the outcome of
`transcription_service.process`: an `HTTPException` is re-raised as is,
any other exception becomes a 500 with a `Transcription failed:` detail. -/
def processPassthrough {ρ : Type} (res : Except ProcessExc ρ) : Except ProcessExc ρ :=
  match res with
  | .ok r => .ok r
  | .error (.httpException c d) => .error (.httpException c d)
  | .error (.exc m) => .error (.httpException 500 ("Transcription failed: " ++ m))

/-- Embedding of the `transcribe` endpoint: 503 when the service is not
initialized; 400 when `not body.audio_url and not body.audio_file`;
otherwise the processing outcome is forwarded. -/
def transcribe {ρ : Type} (serviceReady : Bool) (res : Except ProcessExc ρ)
    (body : TranscriptionRequest) : Except ProcessExc ρ :=
  if serviceReady = false then
    .error (.httpException 503 "Service is not ready. Please try again in a moment.")
  else if (!pyTruthy body.audio_url && !pyTruthy body.audio_file) = true then
    .error (.httpException 400 validationDetail)
  else
    processPassthrough res

/-- Embedding of the `invocations` endpoint: the same 503/400 guards, then
an immediate accepted response carrying `pending_requests + 1` as the
queue position (the job itself is handed to a background task). -/
def invocations (serviceReady : Bool) (pending : Int)
    (body : TranscriptionRequest) : Except ProcessExc (String × Int) :=
  if serviceReady = false then
    .error (.httpException 503 "Service is not ready. Please try again in a moment.")
  else if (!pyTruthy body.audio_url && !pyTruthy body.audio_file) = true then
    .error (.httpException 400 validationDetail)
  else
    .ok ("accepted", pending + 1)

/-- Embedding of the front of `TranscriptionService.process`: the body
raises `HTTPException(400, "audio_url is required")` when `audio_url` is
falsy, before any collaborator runs; otherwise the opaque audio
preparation and the rest of the pipeline run. -/
def TranscriptionService.process {ρ : Type}
    (processAudio : String → Except ProcessExc Prepared)
    (rest : TranscriptionRequest → Prepared → Except ProcessExc ρ)
    (request : TranscriptionRequest) : Except ProcessExc ρ :=
  if pyTruthy request.audio_url = false then
    .error (.httpException 400 "audio_url is required")
  else
    match processAudio (request.audio_url.getD "") with
    | .error e => .error e
    | .ok prep => rest request prep

/-- Counterexample to claim C5 as stated: a submission carrying BOTH
`audio_url` and `audio_file` passes the validation of both endpoints —
the source only rejects when neither is truthy, so "exactly one" is not
enforced. -/
theorem C5_counterexample :
    pyTruthy (⟨some "http://a/x.mp3", some "ZGF0YQ"⟩ :
        TranscriptionRequest).audio_url = true ∧
    pyTruthy (⟨some "http://a/x.mp3", some "ZGF0YQ"⟩ :
        TranscriptionRequest).audio_file = true ∧
    transcribe true (.ok (0 : Nat)) ⟨some "http://a/x.mp3", some "ZGF0YQ"⟩
      = .ok 0 ∧
    invocations true 0 ⟨some "http://a/x.mp3", some "ZGF0YQ"⟩
      = .ok ("accepted", 1) :=
  ⟨rfl, rfl, rfl, rfl⟩

/-- Claim C5, amended: both endpoints reject with the 400 client error
exactly when neither `audio_url` nor `audio_file` is truthy; whenever at
least one of them is present — including when both are — the request
passes validation (the "exactly one" constraint is not enforced). -/
theorem C5_at_least_one_audio_source {ρ : Type} (body : TranscriptionRequest)
    (res : Except ProcessExc ρ) (pending : Int) :
    ((!pyTruthy body.audio_url && !pyTruthy body.audio_file) = true →
      transcribe true res body = .error (.httpException 400 validationDetail) ∧
      invocations true pending body = .error (.httpException 400 validationDetail)) ∧
    ((pyTruthy body.audio_url || pyTruthy body.audio_file) = true →
      transcribe true res body = processPassthrough res ∧
      invocations true pending body = .ok ("accepted", pending + 1)) := by
  constructor
  · intro h
    constructor
    · rw [transcribe, if_neg (by simp), if_pos h]
    · rw [invocations, if_neg (by simp), if_pos h]
  · intro h
    have h' : (!pyTruthy body.audio_url && !pyTruthy body.audio_file) = false := by
      rcases Bool.or_eq_true_iff.mp h with h₁ | h₁ <;> simp [h₁]
    constructor
    · rw [transcribe, if_neg (by simp), if_neg (by simp [h'])]
    · rw [invocations, if_neg (by simp), if_neg (by simp [h'])]

/-- Witness for the amended C5 at a concrete input carrying both fields. -/
theorem C5_at_least_one_audio_source_witness :
    (pyTruthy (⟨some "http://a/x.mp3", some "ZGF0YQ"⟩ :
        TranscriptionRequest).audio_url
      || pyTruthy (⟨some "http://a/x.mp3", some "ZGF0YQ"⟩ :
        TranscriptionRequest).audio_file) = true ∧
    transcribe true (.ok (5 : Nat)) ⟨some "http://a/x.mp3", some "ZGF0YQ"⟩
        = processPassthrough (.ok 5) ∧
    invocations true 3 ⟨some "http://a/x.mp3", some "ZGF0YQ"⟩
        = .ok ("accepted", 4) :=
  ⟨by decide,
    (C5_at_least_one_audio_source ⟨some "http://a/x.mp3", some "ZGF0YQ"⟩
      (.ok 5) 3).2 (by decide)⟩

/-! ### Pending counter bookkeeping (claim C6)

Trace of the updates `process_request_background` makes to
`app.state.pending_requests` for one accepted job.  The source increments
once before waiting on the gate, decrements once upon acquiring a slot,
and — in the `except` branch that wraps the whole gated block — decrements
AGAIN when the processing call raises after the slot was acquired.
-/

inductive PendingEvent where
  | incr
  | decr
  deriving DecidableEq, Repr

/-- The pending-counter events of one run of
`process_request_background` whose job acquires its gate slot:
`incr` at acceptance, `decr` at acquisition, and — when
`transcription_service.process` raises — one more `decr` from the
`except` handler. -/
def process_request_background_pendingEvents (processRaises : Bool) :
    List PendingEvent :=
  if processRaises then
    [PendingEvent.incr, PendingEvent.decr, PendingEvent.decr]
  else
    [PendingEvent.incr, PendingEvent.decr]

/-- Apply a trace of counter events to a starting value. -/
def applyPending (start : Int) (evs : List PendingEvent) : Int :=
  evs.foldl (fun n e => match e with | .incr => n + 1 | .decr => n - 1) start

/-- Claim C6 (code bug): for a job whose processing raises after the gate
slot is acquired, the counter is decremented twice — once at acquisition
and once more in the `except` handler — so a single accepted-then-failing
job drives the counter from 0 to -1, while a successful job balances to 0
with exactly one decrement. -/
theorem C6_pending_double_decrement_on_failure :
    (process_request_background_pendingEvents true).count PendingEvent.decr = 2 ∧
    applyPending 0 (process_request_background_pendingEvents true) = -1 ∧
    (process_request_background_pendingEvents false).count PendingEvent.decr = 1 ∧
    applyPending 0 (process_request_background_pendingEvents false) = 0 := by
  decide

/-- Claim C10: a request with `audio_file` but no `audio_url` passes the
validation of both endpoints, yet every processing path fails:
`TranscriptionService.process` raises
`HTTPException(400, "audio_url is required")` before any collaborator
runs, and the batch `_preprocess` records
`ValueError("audio_url is required")` in the job slot — so an
inline-payload job can never produce a result. -/
theorem C10_audio_file_only_never_processed {ρ : Type}
    (processAudio : String → Except ProcessExc Prepared)
    (rest : TranscriptionRequest → Prepared → Except ProcessExc ρ)
    (prepFn : String → Except BatchErr Prepared)
    (res : Except ProcessExc ρ) (pending : Int) (i : Nat)
    (r : TranscriptionRequest)
    (hfile : pyTruthy r.audio_file = true)
    (hurl : pyTruthy r.audio_url = false) :
    transcribe true res r = processPassthrough res ∧
    invocations true pending r = .ok ("accepted", pending + 1) ∧
    TranscriptionService.process processAudio rest r
      = .error (.httpException 400 "audio_url is required") ∧
    _preprocess prepFn i r = ⟨i, none, r, some (.valueError "audio_url is required")⟩ := by
  refine ⟨?_, ?_, ?_, ?_⟩
  · rw [transcribe, if_neg (by simp), if_neg (by simp [hurl, hfile])]
  · rw [invocations, if_neg (by simp), if_neg (by simp [hurl, hfile])]
  · rw [TranscriptionService.process, if_pos hurl]
  · rw [_preprocess, if_pos hurl]

/-- Witness for C10 at a concrete inline-payload request, with
collaborators that would succeed if they were ever reached. -/
theorem C10_audio_file_only_never_processed_witness :
    pyTruthy (⟨none, some "ZGF0YQ"⟩ : TranscriptionRequest).audio_file = true ∧
    pyTruthy (⟨none, some "ZGF0YQ"⟩ : TranscriptionRequest).audio_url = false ∧
    TranscriptionService.process (fun _ => .ok ⟨"/tmp/a.wav", 7⟩)
        (fun _ _ => (.ok (1 : Nat))) ⟨none, some "ZGF0YQ"⟩
      = .error (.httpException 400 "audio_url is required") ∧
    _preprocess (fun _ => .ok ⟨"/tmp/a.wav", 7⟩) 0 ⟨none, some "ZGF0YQ"⟩
      = ⟨0, none, ⟨none, some "ZGF0YQ"⟩, some (.valueError "audio_url is required")⟩ :=
  ⟨by decide, by decide,
    (C10_audio_file_only_never_processed (fun _ => .ok ⟨"/tmp/a.wav", 7⟩)
      (fun _ _ => (.ok (1 : Nat))) (fun _ => .ok ⟨"/tmp/a.wav", 7⟩)
      (.ok 1) 0 0 ⟨none, some "ZGF0YQ"⟩ (by decide) (by decide)).2.2.1,
    (C10_audio_file_only_never_processed (fun _ => .ok ⟨"/tmp/a.wav", 7⟩)
      (fun _ _ => (.ok (1 : Nat))) (fun _ => .ok ⟨"/tmp/a.wav", 7⟩)
      (.ok 1) 0 0 ⟨none, some "ZGF0YQ"⟩ (by decide) (by decide)).2.2.2⟩

/-! ### Admission gate transition system (claim C1)

Interleaving semantics of all code paths that use
`app.state.gpu_semaphore`: the synchronous `transcribe` endpoint, the
background task of `invocations`, and `_process_job_batch` in
`src/build_code/src/main.py`.  Every one of them wraps its compute call in
a single `async with gpu_semaphore:` block, so each task acquires once,
computes, and releases once; the semaphore starts with
`MAX_CONCURRENCY` free slots and `acquire` only proceeds when a slot is
free.  Tasks of either kind may be spawned at any time, so the relation
covers every interleaving of synchronous requests and batch work.
-/

/-- Which code path a task runs: the synchronous endpoint or the queued
batch worker. -/
inductive CallPath where
  | syncEndpoint
  | queuedBatch
  deriving DecidableEq, Repr

/-- Where a task is relative to the gate: before `acquire`, inside the
guarded region (computing), or after `release`. -/
inductive GatePhase where
  | waiting
  | computing
  | finished
  deriving DecidableEq, Repr

/-- Global state: the free-slot count of the semaphore and one phase per
spawned task. -/
structure GateState where
  available : Nat
  tasks : List (CallPath × GatePhase)
  deriving DecidableEq, Repr

/-- Initial state: `asyncio.Semaphore(MAX_CONCURRENCY)` and no tasks. -/
def initGateState (N : Nat) : GateState := ⟨N, []⟩

/-- Interleaving steps: spawn a new task on either path, let a waiting
task acquire a free slot, or let a computing task release its slot. -/
inductive GateStep : GateState → GateState → Prop
  | submit (s : GateState) (p : CallPath) :
      GateStep s ⟨s.available, s.tasks ++ [(p, GatePhase.waiting)]⟩
  | acquire (s : GateState) (i : Nat) (p : CallPath)
      (htask : s.tasks[i]? = some (p, GatePhase.waiting))
      (hfree : s.available ≠ 0) :
      GateStep s ⟨s.available - 1, s.tasks.set i (p, GatePhase.computing)⟩
  | release (s : GateState) (i : Nat) (p : CallPath)
      (htask : s.tasks[i]? = some (p, GatePhase.computing)) :
      GateStep s ⟨s.available + 1, s.tasks.set i (p, GatePhase.finished)⟩

/-- States reachable from the initial state with capacity `N`. -/
def ReachableGate (N : Nat) (s : GateState) : Prop :=
  Relation.ReflTransGen GateStep (initGateState N) s

/-- Number of tasks currently inside the guarded region. -/
def computingCount (s : GateState) : Nat :=
  s.tasks.countP (fun t => t.2 == GatePhase.computing)

theorem countP_set_balance (p : α → Bool) :
    ∀ (l : List α) (i : Nat) (a b : α), l[i]? = some a →
      (l.set i b).countP p + (if p a then 1 else 0)
        = l.countP p + (if p b then 1 else 0) := by
  intro l
  induction l with
  | nil => intro i a b h; simp at h
  | cons x xs ih =>
    intro i a b h
    cases i with
    | zero =>
      rw [List.getElem?_cons_zero] at h
      cases h
      rw [List.set_cons_zero, List.countP_cons, List.countP_cons]
      omega
    | succ j =>
      rw [List.getElem?_cons_succ] at h
      rw [List.set_cons_succ, List.countP_cons, List.countP_cons]
      have := ih j a b h
      omega

/-- Every single step preserves the semaphore balance. -/
theorem gate_step_invariant (N : Nat) (s s₂ : GateState) (hstep : GateStep s s₂)
    (ih : s.available + computingCount s = N) :
    s₂.available + computingCount s₂ = N := by
  cases hstep with
  | submit p =>
    have hc : computingCount ⟨s.available, s.tasks ++ [(p, GatePhase.waiting)]⟩
        = computingCount s := by
      simp [computingCount, List.countP_append]
    rw [hc]
    exact ih
  | acquire i p htask hfree =>
    have hbal := countP_set_balance (fun t => t.2 == GatePhase.computing)
      s.tasks i (p, GatePhase.waiting) (p, GatePhase.computing) htask
    simp only [show ((p, GatePhase.waiting).2 == GatePhase.computing) = false from rfl,
      show ((p, GatePhase.computing).2 == GatePhase.computing) = true from rfl,
      Bool.false_eq_true, if_false, if_true] at hbal
    show (s.available - 1) + (s.tasks.set i (p, GatePhase.computing)).countP
        (fun t => t.2 == GatePhase.computing) = N
    simp only [computingCount] at ih
    omega
  | release i p htask =>
    have hbal := countP_set_balance (fun t => t.2 == GatePhase.computing)
      s.tasks i (p, GatePhase.computing) (p, GatePhase.finished) htask
    simp only [show ((p, GatePhase.computing).2 == GatePhase.computing) = true from rfl,
      show ((p, GatePhase.finished).2 == GatePhase.computing) = false from rfl,
      Bool.false_eq_true, if_false, if_true] at hbal
    show (s.available + 1) + (s.tasks.set i (p, GatePhase.finished)).countP
        (fun t => t.2 == GatePhase.computing) = N
    simp only [computingCount] at ih
    omega

/-- The semaphore invariant: free slots plus tasks inside the region
always equal the configured capacity. -/
theorem gate_invariant (N : Nat) :
    ∀ s : GateState, ReachableGate N s → s.available + computingCount s = N := by
  intro s h
  induction h with
  | refl => simp [initGateState, computingCount]
  | tail hsteps hstep ih => exact gate_step_invariant N _ _ hstep ih

/-- Claim C1: in every reachable state of the shared admission gate, at
most `N = max_concurrency` tasks — across the synchronous endpoint path
and the queued batch path together — are inside the guarded region. -/
theorem C1_gate_bounds_concurrent_compute (N : Nat) (s : GateState)
    (h : ReachableGate N s) : computingCount s ≤ N := by
  have := gate_invariant N s h
  omega

/-- Witness for C1: with capacity 1, the state reached by spawning one
synchronous request and letting it acquire the gate is reachable and has
one task computing, within the bound. -/
theorem C1_gate_bounds_concurrent_compute_witness :
    ReachableGate 1 ⟨0, [(CallPath.syncEndpoint, GatePhase.computing)]⟩ ∧
    computingCount ⟨0, [(CallPath.syncEndpoint, GatePhase.computing)]⟩ = 1 ∧
    computingCount ⟨0, [(CallPath.syncEndpoint, GatePhase.computing)]⟩ ≤ 1 := by
  have h1 : GateStep (initGateState 1)
      ⟨1, [(CallPath.syncEndpoint, GatePhase.waiting)]⟩ :=
    GateStep.submit (initGateState 1) CallPath.syncEndpoint
  have h2 : GateStep ⟨1, [(CallPath.syncEndpoint, GatePhase.waiting)]⟩
      ⟨0, [(CallPath.syncEndpoint, GatePhase.computing)]⟩ :=
    GateStep.acquire ⟨1, [(CallPath.syncEndpoint, GatePhase.waiting)]⟩ 0
      CallPath.syncEndpoint rfl (by decide)
  have hr : ReachableGate 1 ⟨0, [(CallPath.syncEndpoint, GatePhase.computing)]⟩ :=
    Relation.ReflTransGen.tail (Relation.ReflTransGen.tail
      Relation.ReflTransGen.refl h1) h2
  exact ⟨hr, by decide, C1_gate_bounds_concurrent_compute 1 _ hr⟩

/-! ### Autoscale monitor (claim C8)

Embedding of `queue_autoscaler_loop` in `src/gpu_queue_api.py`.  The state
carries the module globals `idle_start_time`, `shutdown_requested` and
`pod_running` plus the current wall-clock time; each iteration observes
one queue depth, updates the state exactly as the loop body does, and
advances time by the poll interval.  Issuing a scale-down signal means the
loop calling `trigger_runpod_shutdown` (which also sets `shutdown_requested`
right after; the function itself leaves `pod_running` false).
-/

structure AutoscalerState where
  idleStart : Option Nat
  shutdownRequested : Bool
  podRunning : Bool
  now : Nat
  deriving DecidableEq, Repr

/-- One poll iteration of `queue_autoscaler_loop` observing `depth`;
returns the successor state and whether the scale-down signal was issued
in this iteration. -/
def autoscalerStep (T p : Nat) (s : AutoscalerState) (depth : Nat) :
    AutoscalerState × Bool :=
  if depth = 0 then
    match s.idleStart with
    | none => (⟨some s.now, s.shutdownRequested, s.podRunning, s.now + p⟩, false)
    | some t0 =>
      if T ≤ s.now - t0 then
        if s.shutdownRequested = false then
          (⟨some t0, true, false, s.now + p⟩, true)
        else
          (⟨some t0, s.shutdownRequested, s.podRunning, s.now + p⟩, false)
      else
        (⟨some t0, s.shutdownRequested, s.podRunning, s.now + p⟩, false)
  else
    (⟨none, false, true, s.now + p⟩, false)

/-- Run the loop over a finite sequence of observed depths, counting the
scale-down signals issued. -/
def autoscalerRun (T p : Nat) (s : AutoscalerState) : List Nat → AutoscalerState × Nat
  | [] => (s, 0)
  | d :: ds =>
    let step := autoscalerStep T p s d
    let rest := autoscalerRun T p step.1 ds
    (rest.1, (if step.2 then 1 else 0) + rest.2)

/-- The state at loop startup: no idle timer, no shutdown requested. -/
def initAutoscaler (pod : Bool) (t0 : Nat) : AutoscalerState := ⟨none, false, pod, t0⟩

/-- Number of scale-down signals issued over a run started at boot. -/
def scaleDownCount (T p : Nat) (pod : Bool) (t0 : Nat) (depths : List Nat) : Nat :=
  (autoscalerRun T p (initAutoscaler pod t0) depths).2

/-- Specification-side count: one signal per maximal run of consecutive
zero observations that lasts at least the idle timeout — a run of `n`
zero samples spans `(n-1)` poll intervals after the timer starts. -/
def qualifyingIdleRuns (T p : Nat) : List Nat → Nat
  | [] => 0
  | d :: ds =>
    if d = 0 then
      (if T ≤ (ds.takeWhile (fun x => x == 0)).length * p then 1 else 0)
        + qualifyingIdleRuns T p (ds.dropWhile (fun x => x == 0))
    else
      qualifyingIdleRuns T p ds
  termination_by l => l.length
  decreasing_by
    · simp only [List.length_cons]
      exact Nat.lt_succ_of_le (dropWhile_length_le _ _)
    · simp only [List.length_cons]
      omega

theorem qualifyingIdleRuns_cons_zero (T p : Nat) (ds : List Nat) :
    qualifyingIdleRuns T p (0 :: ds)
      = (if T ≤ (ds.takeWhile (fun x => x == 0)).length * p then 1 else 0)
        + qualifyingIdleRuns T p (ds.dropWhile (fun x => x == 0)) := by
  rw [qualifyingIdleRuns]
  simp

theorem qualifyingIdleRuns_cons_pos (T p : Nat) (d : Nat) (hd : d ≠ 0)
    (ds : List Nat) :
    qualifyingIdleRuns T p (d :: ds) = qualifyingIdleRuns T p ds := by
  rw [qualifyingIdleRuns, if_neg hd]

theorem autoscalerStep_pos (T p : Nat) (s : AutoscalerState) (d : Nat) (hd : d ≠ 0) :
    autoscalerStep T p s d = (⟨none, false, true, s.now + p⟩, false) := by
  rw [autoscalerStep, if_neg hd]

theorem autoscalerRun_append (T p : Nat) :
    ∀ (xs ys : List Nat) (s : AutoscalerState),
      autoscalerRun T p s (xs ++ ys)
        = ((autoscalerRun T p (autoscalerRun T p s xs).1 ys).1,
           (autoscalerRun T p s xs).2
             + (autoscalerRun T p (autoscalerRun T p s xs).1 ys).2) := by
  intro xs
  induction xs with
  | nil => intro ys s; simp [autoscalerRun]
  | cons d xs ih =>
    intro ys s
    rw [List.cons_append, autoscalerRun, autoscalerRun, ih]
    simp [Nat.add_assoc]

/-- Once `shutdown_requested` is set, continued zero depth issues no
further signal and leaves the flag set. -/
theorem autoscalerRun_zeros_armed (T p : Nat) :
    ∀ (zs : List Nat) (t : Nat) (pod : Bool) (now : Nat),
      (∀ d ∈ zs, d = 0) →
      autoscalerRun T p ⟨some t, true, pod, now⟩ zs
        = (⟨some t, true, pod, now + zs.length * p⟩, 0) := by
  intro zs
  induction zs with
  | nil =>
    intro t pod now _
    simp [autoscalerRun]
  | cons z zs ih =>
    intro t pod now hall
    have hz : z = 0 := hall z (List.mem_cons_self z zs)
    subst hz
    have hstep : autoscalerStep T p ⟨some t, true, pod, now⟩ 0
        = (⟨some t, true, pod, now + p⟩, false) := by
      by_cases hT2 : T ≤ now - t
      · simp [autoscalerStep, hT2]
      · simp [autoscalerStep, hT2]
    rw [autoscalerRun, hstep]
    rw [ih t pod (now + p) (fun d hd => hall d (List.mem_cons_of_mem 0 hd))]
    have harith : now + p + zs.length * p = now + (zs.length + 1) * p := by ring
    simp [harith]

/-- With the idle timer running since `t` and `shutdown_requested` clear,
a run of zero observations starting `j` polls after the timer was set
issues exactly one signal when it reaches the timeout, and none
otherwise. -/
theorem autoscalerRun_zeros_unarmed (T p : Nat) :
    ∀ (zs : List Nat) (j t : Nat) (pod : Bool),
      (∀ d ∈ zs, d = 0) → 1 ≤ j →
      (autoscalerRun T p ⟨some t, false, pod, t + j * p⟩ zs).2
        = if T ≤ (j + zs.length - 1) * p ∧ zs.length ≠ 0 then 1 else 0 := by
  intro zs
  induction zs with
  | nil =>
    intro j t pod _ _
    simp [autoscalerRun]
  | cons z zs ih =>
    intro j t pod hall hj
    have hz : z = 0 := hall z (List.mem_cons_self z zs)
    subst hz
    have helapsed : t + j * p - t = j * p := by omega
    by_cases hT2 : T ≤ j * p
    · have hstep : autoscalerStep T p ⟨some t, false, pod, t + j * p⟩ 0
          = (⟨some t, true, false, t + j * p + p⟩, true) := by
        simp [autoscalerStep, helapsed, hT2]
      rw [autoscalerRun, hstep]
      rw [autoscalerRun_zeros_armed T p zs t false (t + j * p + p)
        (fun d hd => hall d (List.mem_cons_of_mem 0 hd))]
      have hcond : T ≤ (j + (zs.length + 1) - 1) * p ∧ zs.length + 1 ≠ 0 := by
        constructor
        · calc T ≤ j * p := hT2
            _ ≤ (j + (zs.length + 1) - 1) * p := by
              apply Nat.mul_le_mul_right
              omega
        · omega
      show 1 + 0 = if T ≤ (j + (zs.length + 1) - 1) * p ∧ zs.length + 1 ≠ 0
        then 1 else 0
      rw [if_pos hcond]
    · have hstep : autoscalerStep T p ⟨some t, false, pod, t + j * p⟩ 0
          = (⟨some t, false, pod, t + j * p + p⟩, false) := by
        simp [autoscalerStep, helapsed, hT2]
      rw [autoscalerRun, hstep]
      have harith : t + j * p + p = t + (j + 1) * p := by ring
      show 0 + (autoscalerRun T p ⟨some t, false, pod, t + j * p + p⟩ zs).2
        = if T ≤ (j + (zs.length + 1) - 1) * p ∧ zs.length + 1 ≠ 0 then 1 else 0
      rw [Nat.zero_add, harith]
      rw [ih (j + 1) t pod (fun d hd => hall d (List.mem_cons_of_mem 0 hd)) (by omega)]
      by_cases hlen : zs.length = 0
      · rw [hlen]
        rw [if_neg (by simp), if_neg (by simp [hT2])]
      · have h₁ : j + 1 + zs.length - 1 = j + (zs.length + 1) - 1 := by omega
        rw [h₁]
        by_cases hc : T ≤ (j + (zs.length + 1) - 1) * p
        · rw [if_pos ⟨hc, hlen⟩, if_pos ⟨hc, by omega⟩]
        · rw [if_neg (fun h => hc h.1), if_neg (fun h => hc h.1)]

/-- From a clean state the loop issues exactly one scale-down signal per
maximal zero-run that reaches the idle timeout. -/
theorem autoscalerRun_count (T p : Nat) (hT : 1 ≤ T) :
    ∀ (n : Nat) (ds : List Nat) (t0 : Nat) (pod : Bool), ds.length ≤ n →
      (autoscalerRun T p ⟨none, false, pod, t0⟩ ds).2 = qualifyingIdleRuns T p ds := by
  intro n
  induction n with
  | zero =>
    intro ds t0 pod hlen
    cases ds with
    | nil => simp [autoscalerRun, qualifyingIdleRuns]
    | cons d ds => simp at hlen
  | succ n ih =>
    intro ds t0 pod hlen
    cases ds with
    | nil => simp [autoscalerRun, qualifyingIdleRuns]
    | cons d ds =>
      by_cases hd : d = 0
      · subst hd
        have hstep : autoscalerStep T p ⟨none, false, pod, t0⟩ 0
            = (⟨some t0, false, pod, t0 + p⟩, false) := by
          simp [autoscalerStep]
        rw [autoscalerRun, hstep]
        simp only [Bool.false_eq_true, if_false, Nat.zero_add]
        rw [qualifyingIdleRuns_cons_zero]
        have hsplit : ds = ds.takeWhile (fun x => x == 0)
            ++ ds.dropWhile (fun x => x == 0) :=
          (List.takeWhile_append_dropWhile _ _).symm
        conv_lhs => rw [hsplit]
        rw [autoscalerRun_append]
        have hzs : ∀ x ∈ ds.takeWhile (fun x => x == 0), x = 0 := by
          intro x hx
          have := List.mem_takeWhile_imp hx
          exact eq_of_beq this
        have hone : t0 + p = t0 + 1 * p := by ring
        rw [hone]
        rw [autoscalerRun_zeros_unarmed T p _ 1 t0 pod hzs le_rfl]
        have hcount₁ :
            (if T ≤ (1 + (ds.takeWhile (fun x => x == 0)).length - 1) * p ∧
                (ds.takeWhile (fun x => x == 0)).length ≠ 0 then 1 else 0)
              = if T ≤ (ds.takeWhile (fun x => x == 0)).length * p then 1 else 0 := by
          have h₁ : 1 + (ds.takeWhile (fun x => x == 0)).length - 1
              = (ds.takeWhile (fun x => x == 0)).length := by omega
          rw [h₁]
          by_cases hlen0 : (ds.takeWhile (fun x => x == 0)).length = 0
          · rw [hlen0]
            rw [if_neg (by omega), if_neg (by simpa using (by omega : ¬ T ≤ 0))]
          · by_cases hc : T ≤ (ds.takeWhile (fun x => x == 0)).length * p
            · rw [if_pos ⟨hc, hlen0⟩, if_pos hc]
            · rw [if_neg (by tauto), if_neg hc]
        rw [hcount₁]
        have hrest :
            (autoscalerRun T p (autoscalerRun T p ⟨some t0, false, pod, t0 + 1 * p⟩
              (ds.takeWhile (fun x => x == 0))).1 (ds.dropWhile (fun x => x == 0))).2
              = qualifyingIdleRuns T p (ds.dropWhile (fun x => x == 0)) := by
          cases hdrop : ds.dropWhile (fun x => x == 0) with
          | nil => simp [autoscalerRun, qualifyingIdleRuns]
          | cons r rest =>
            have hr : r ≠ 0 := by
              have := dropWhile_head_false (fun x => x == 0) ds r rest hdrop
              intro hEq
              rw [hEq] at this
              simp at this
            rw [autoscalerRun, autoscalerStep_pos T p _ r hr]
            simp only [Bool.false_eq_true, if_false, Nat.zero_add]
            rw [qualifyingIdleRuns_cons_pos T p r hr rest]
            apply ih rest _ true
            have hds : ds.length ≤ n := by
              simp only [List.length_cons] at hlen
              omega
            have hdroplen : (ds.dropWhile (fun x => x == 0)).length ≤ ds.length :=
              dropWhile_length_le _ _
            rw [hdrop] at hdroplen
            simp only [List.length_cons] at hdroplen
            omega
        rw [hrest]
      · have hstep := autoscalerStep_pos T p ⟨none, false, pod, t0⟩ d hd
        rw [autoscalerRun, hstep]
        simp only [Bool.false_eq_true, if_false, Nat.zero_add]
        rw [qualifyingIdleRuns_cons_pos T p d hd ds]
        apply ih ds _ true
        simp only [List.length_cons] at hlen
        omega

/-- Claim C8: over every observed depth trace, the autoscaler issues the
scale-down signal exactly once per maximal all-zero stretch that lasts at
least the idle timeout; continued zero depth after a signal issues
nothing, and a new signal requires depth to become positive (clearing the
shutdown flag) and a fresh full idle period. -/
theorem C8_scale_down_once_per_idle_period (T p : Nat) (hT : 1 ≤ T)
    (pod : Bool) (t0 : Nat) (depths : List Nat) :
    scaleDownCount T p pod t0 depths = qualifyingIdleRuns T p depths :=
  autoscalerRun_count T p hT depths.length depths t0 pod le_rfl

/-- Witness for C8: idle timeout of 2 polls, two qualifying idle runs
separated by one busy sample give exactly two signals. -/
theorem C8_scale_down_once_per_idle_period_witness :
    1 ≤ 2 ∧
    scaleDownCount 2 1 true 0 [0, 0, 0, 5, 0, 0, 0, 0]
      = qualifyingIdleRuns 2 1 [0, 0, 0, 5, 0, 0, 0, 0] ∧
    scaleDownCount 2 1 true 0 [0, 0, 0, 5, 0, 0, 0, 0] = 2 :=
  ⟨by decide,
    C8_scale_down_once_per_idle_period 2 1 (by decide) true 0 _,
    by decide⟩

/-! ### Speaker label formatting (claim C7)

Embedding of the label canonicalization inside `DiarizationService.diarize`
(`src/build_code/src/services/diarization_service.py`):

    if speaker.startswith("SPEAKER_00"): formatted = "SPEAKER_1"
    elif speaker.startswith("SPEAKER_0"):
        formatted = f"SPEAKER_\x7bint(speaker.split('_')[1]) + 1\x7d"
    else: formatted = speaker

The python string primitives are embedded at the character-list level so
that the kernel can evaluate them on concrete labels.
-/

/-- Python `str.startswith`. -/
def py_startswith (s pre : String) : Bool := pre.data.isPrefixOf s.data

/-- Split a character list at every occurrence of `c` (python
`str.split` with a one-character separator, helper). -/
def splitCharAux (c : Char) : List Char → List (List Char)
  | [] => [[]]
  | ch :: rest =>
    let groups := splitCharAux c rest
    if ch = c then [] :: groups
    else
      match groups with
      | [] => [[ch]]
      | g :: gs => (ch :: g) :: gs

/-- Python `str.split(sep)` for a single-character separator. -/
def py_split_char (c : Char) (s : String) : List String :=
  (splitCharAux c s.data).map List.asString

/-- Python `int()` on a decimal digit string; `none` models the
`ValueError` that a non-numeric suffix would raise. -/
def py_int? (s : String) : Option Nat :=
  if s.data ≠ [] ∧ s.data.all (fun ch => ch.isDigit) then
    some (s.data.foldl (fun n ch => n * 10 + (ch.toNat - Char.toNat (Char.ofNat 48))) 0)
  else none

/-- The speaker-label canonicalization of `DiarizationService.diarize`.
In the unreachable parse-failure branch the source raises; the embedding
returns the label unchanged there (no pyannote label reaches it). -/
def formatSpeaker (speaker : String) : String :=
  if py_startswith speaker "SPEAKER_00" then "SPEAKER_1"
  else if py_startswith speaker "SPEAKER_0" then
    match py_int? ((py_split_char (Char.ofNat 95) speaker).getD 1 "") with
    | some num => "SPEAKER_" ++ toString (num + 1)
    | none => speaker
  else speaker

/-- Counterexample to claim C7 as stated: the model labels `SPEAKER_09`
and `SPEAKER_10` are distinct but map to the same output `SPEAKER_10` —
the canonicalization only rewrites labels starting with `SPEAKER_0`, so
`SPEAKER_10` passes through unchanged instead of becoming `SPEAKER_11`,
and the map is not injective on `SPEAKER_00 … SPEAKER_10`. -/
theorem C7_counterexample :
    formatSpeaker "SPEAKER_09" = "SPEAKER_10" ∧
    formatSpeaker "SPEAKER_10" = "SPEAKER_10" ∧
    ("SPEAKER_09" : String) ≠ "SPEAKER_10" ∧
    formatSpeaker "SPEAKER_10" ≠ "SPEAKER_11" := by
  refine ⟨by decide, by decide, by decide, by decide⟩

/-- Claim C7, amended: the canonicalization maps the two-digit model
labels `SPEAKER_00` through `SPEAKER_09` to `SPEAKER_1` through
`SPEAKER_10`; any label not starting with `SPEAKER_0` — in particular
`SPEAKER_10` and beyond — is passed through unchanged, so the 1-based
scheme (and injectivity) holds only for the first ten model labels, and
`SPEAKER_09` collides with the passed-through `SPEAKER_10`. -/
theorem C7_two_digit_labels_remapped :
    (∀ n : Nat, n ≤ 9 →
      formatSpeaker ("SPEAKER_0" ++ toString n) = "SPEAKER_" ++ toString (n + 1)) ∧
    formatSpeaker "SPEAKER_10" = "SPEAKER_10" := by
  constructor
  · intro n hn
    interval_cases n <;> decide
  · decide

/-- Witness for the amended C7 at the concrete label `SPEAKER_03`. -/
theorem C7_two_digit_labels_remapped_witness :
    (3 ≤ 9) ∧ formatSpeaker ("SPEAKER_0" ++ toString 3) = "SPEAKER_" ++ toString (3 + 1) :=
  ⟨by decide, C7_two_digit_labels_remapped.1 3 (by decide)⟩

end WhisperService
